import Mathlib

/-!
Shallow embedding of the song-search engine of this repository
(src/song_search.py).  The wrapper code (class SongSearchEngine: normalize,
build_index, search_songs, get_song_details, get_search_suggestions) is
translated directly from the Python source.  The parts of the engine that the
source delegates to the wrapped full-text library (the stemming analyzer, the
index writer with its error contract, the query parser and the ranking
searcher) are not present in the repository; those definitions are modelled
from the spec and carry a doc comment saying so.

Strings are lists of characters; Python text data is ASCII in this model
(lowercasing and the whitespace class are the ASCII fragments of their Python
counterparts).
-/

namespace SongSearch

/-- Characters, as the wrapper sees strings. -/

abbrev Str := List Char

/-- Python regex class \s restricted to ASCII: space, tab, newline, carriage
return, vertical tab, form feed.  Used by normalize (re.sub of \s+) and by
str.strip. -/
def isSpaceChar (c : Char) : Bool :=
  c.toNat = 32 || c.toNat = 9 || c.toNat = 10 || c.toNat = 13 ||
  c.toNat = 11 || c.toNat = 12

/-- Python str.strip: drop leading and trailing whitespace. -/
def stripStr (s : Str) : Str :=
  ((s.dropWhile isSpaceChar).reverse.dropWhile isSpaceChar).reverse

/-- Python re.sub of \s+ by a single space: worker with a flag recording
whether the previous character was whitespace, so that the recursion is
structural and concrete instances reduce in the kernel. -/
def collapseGo (prevSpace : Bool) : Str → Str
  | [] => []
  | c :: cs =>
    if isSpaceChar c then
      if prevSpace then collapseGo true cs
      else ' ' :: collapseGo true cs
    else c :: collapseGo false cs

/-- Python re.sub of \s+ by a single space: each maximal run of whitespace
characters becomes one space character.  The run-shaped equation
collapseWS_cons and induction principle collapseWS_induction are derived
below. -/
def collapseWS (l : Str) : Str := collapseGo false l

/-- SongSearchEngine.normalize (src/song_search.py lines 26-32):
empty input gives the empty string, otherwise strip, lowercase, and collapse
every whitespace run to one space.  Char.toLower is the ASCII fragment of
Python str.lower. -/
def normalize (text : Str) : Str :=
  if text = [] then []
  else collapseWS ((stripStr text).map Char.toLower)

/- Characterization of normalized strings, used to prove idempotence. -/
/-- Every character is a fixed point of lowercasing. -/
def lowerFixed (l : Str) : Bool := l.all fun c => c.toLower == c

/-- The first character, if any, is not whitespace. -/
def headOk (l : Str) : Bool := l.head?.all fun c => !isSpaceChar c

/-- The last character, if any, is not whitespace. -/
def lastOk (l : Str) : Bool := l.getLast?.all fun c => !isSpaceChar c

/-- Every whitespace character is a plain space and is not followed by another
whitespace character. -/
def wsOk : Str → Bool
  | [] => true
  | [c] => !isSpaceChar c || c == ' '
  | c :: d :: rest =>
    (!isSpaceChar c || (c == ' ' && !isSpaceChar d)) && wsOk (d :: rest)

/-- Word characters, the regex class \w restricted to ASCII: letters, digits,
underscore. -/
def isWordChar (c : Char) : Bool := c.isAlphanum || c == '_'

/-- Modelled from the spec: worker of the analyzer tokenizer; cur holds the
reversed portion of the current token, so that recursion is structural. -/
def tokenizeGo (cur : Str) : Str → List Str
  | [] => if cur = [] then [] else [cur.reverse]
  | c :: cs =>
    if isWordChar c then tokenizeGo (c :: cur) cs
    else if cur = [] then tokenizeGo [] cs
    else cur.reverse :: tokenizeGo [] cs

/-- Modelled from the spec: the analyzer tokenizer of the wrapped full-text
library (spec section 4.1, "splits on word boundaries"): maximal runs of word
characters.  The run-shaped equation tokenize_cons and induction principle
tokenize_induction are derived below. -/
def tokenize (l : Str) : List Str := tokenizeGo [] l

/-- Modelled from the spec: the stoplist handed to the stemming analyzer in
setup_schema (src/song_search.py line 37). -/
def stoplist : List Str := ["and".data, "or".data, "but".data]

/-- Modelled from the spec (section 4.1): the stemming analyzer used for the
title, artist and lyrics fields: tokenize, lowercase, remove stoplist words,
then stem each token.  The spec fixes no particular stemming algorithm
("a deterministic stemming algorithm"), so the stemmer is a parameter. -/
def analyzeWith (stem : Str → Str) (text : Str) : List Str :=
  (((tokenize text).map fun t => t.map Char.toLower).filter
    fun t => !stoplist.contains t).map stem

/-- Modelled from the spec (section 4.1): a deterministic Porter-style
suffix-stripping stemmer, used to instantiate the stem parameter on concrete
inputs. -/
def stemLite (t : Str) : Str :=
  if 4 < t.length && "ing".data.isSuffixOf t then t.take (t.length - 3)
  else if 3 < t.length && "ed".data.isSuffixOf t then t.take (t.length - 2)
  else if 2 < t.length && "s".data.isSuffixOf t then t.take (t.length - 1)
  else t

/-- Value of the song_id column as loaded from the CSV: pandas may deliver a
number or a string. -/
inductive PyVal where
  | s (v : Str)
  | i (n : Int)
deriving DecidableEq

/-- Python str() conversion of a song_id value. -/
def pyStr : PyVal → Str
  | .s v => v
  | .i n => (toString n).data

/-- One row of the loaded CSV (an entry of songs_data), with the mandatory
columns song_id, title, artist, lyrics. -/
structure SongRecord where
  song_id : PyVal
  title : Str
  artist : Str
  lyrics : Str
deriving DecidableEq

/-- The document handed to writer.add_document in build_index (src lines
97-104): song_id is str()-converted, the three searchable fields are
normalized, the two exact display fields keep the raw text. -/
structure IndexedDoc where
  song_id : Str
  title : Str
  artist : Str
  lyrics : Str
  title_exact : Str
  artist_exact : Str
deriving DecidableEq

def toIndexedDoc (song : SongRecord) : IndexedDoc :=
  { song_id := pyStr song.song_id
    title := normalize song.title
    artist := normalize song.artist
    lyrics := normalize song.lyrics
    title_exact := song.title
    artist_exact := song.artist }

/-- Modelled from the spec (section 3): an index generation is an immutable,
fully-built snapshot; documents are kept in insertion order. -/
structure Generation where
  docs : List IndexedDoc
deriving DecidableEq

/-- The engine state visible to searches: self.ix (None before any successful
create_in) and self.songs_data. -/
structure Engine where
  ix : Option Generation
  songs_data : List SongRecord
deriving DecidableEq

/-- Modelled from the spec (sections 4.3 and 7): the writer's error
taxonomy for a batch build. -/
inductive BuildError where
  | emptyInput
  | duplicateKey (id : Str)
deriving DecidableEq

instance exceptDecEq {e a : Type} [DecidableEq e] [DecidableEq a] :
    DecidableEq (Except e a) := fun x y =>
  match x, y with
  | .ok v, .ok w => if h : v = w then isTrue (by rw [h]) else isFalse (by simp [h])
  | .error v, .error w => if h : v = w then isTrue (by rw [h]) else isFalse (by simp [h])
  | .ok _, .error _ => isFalse (by simp)
  | .error _, .ok _ => isFalse (by simp)

/-- Modelled from the spec (section 4.3): records are ingested one by one;
adding a record whose unique song_id value was already added fails with
DuplicateKeyError naming the offending id. -/
def addDocs (seen : List Str) : List SongRecord → Except BuildError (List IndexedDoc)
  | [] => .ok []
  | song :: rest =>
    let key := pyStr song.song_id
    if seen.contains key then .error (.duplicateKey key)
    else
      match addDocs (key :: seen) rest with
      | .ok docs => .ok (toIndexedDoc song :: docs)
      | .error e => .error e

/-- Modelled from the spec (section 4.3): build(schema, records) fails with
EmptyInputError on an empty batch and with DuplicateKeyError when two records
share the unique field value; otherwise it yields the fully-built document
list.  Commit is all-or-nothing: an error commits nothing. -/
def buildDocs (records : List SongRecord) : Except BuildError (List IndexedDoc) :=
  if records = [] then .error .emptyInput
  else addDocs [] records

/-- SongSearchEngine.build_index (src lines 74-110): an empty songs_data
returns early with the index untouched; otherwise the existing index
directory is removed, index.create_in installs a fresh empty generation as
self.ix, then the records are added and committed.  Any exception while
adding or committing is caught (st.error) and leaves self.ix at the fresh
empty generation installed by create_in, with nothing committed. -/
def build_index (e : Engine) : Engine :=
  if e.songs_data = [] then e
  else
    match buildDocs e.songs_data with
    | .ok docs => { e with ix := some ⟨docs⟩ }
    | .error _ => { e with ix := some ⟨[]⟩ }

/-- The searchable fields selectable by the caller of search_songs. -/
inductive SField where
  | title
  | artist
  | lyrics
deriving DecidableEq

def fieldVal (d : IndexedDoc) : SField → Str
  | .title => d.title
  | .artist => d.artist
  | .lyrics => d.lyrics

/-- Modelled from the spec (section 4.4) together with src line 127: the raw
query string is normalized exactly as at indexing time
(parser.parse(self.normalize(query_str))) and analyzed into stemmed terms. -/
def queryTerms (stem : Str → Str) (raw : Str) : List Str :=
  analyzeWith stem (normalize raw)

/-- Modelled from the spec (section 4.4): a document matches the parsed query
when some term occurs, in its stemmed form, in some selected field. -/
def docMatches (stem : Str → Str) (fields : List SField) (terms : List Str)
    (d : IndexedDoc) : Bool :=
  terms.any fun t => fields.any fun f => (analyzeWith stem (fieldVal d f)).contains t

/-- Modelled from the spec (section 4.5): a term-frequency-based relevance
score, summed across matched fields and terms. -/
def scoreDoc (stem : Str → Str) (fields : List SField) (terms : List Str)
    (d : IndexedDoc) : Nat :=
  (terms.map fun t =>
    (fields.map fun f => (analyzeWith stem (fieldVal d f)).count t).sum).sum

/-- Lexicographic order on strings, for the deterministic tie-break on
document ids. -/
def lexLe : Str → Str → Bool
  | [], _ => true
  | _ :: _, [] => false
  | a :: as, b :: bs => if a = b then lexLe as bs else decide (a < b)

/-- Modelled from the spec (section 4.5): search results are ordered by
descending score, ties broken by document id ascending. -/
def resultRel (stem : Str → Str) (fields : List SField) (terms : List Str)
    (a b : IndexedDoc) : Prop :=
  scoreDoc stem fields terms b < scoreDoc stem fields terms a ∨
    (scoreDoc stem fields terms a = scoreDoc stem fields terms b ∧
      lexLe a.song_id b.song_id = true)

instance (stem : Str → Str) (fields : List SField) (terms : List Str) :
    DecidableRel (resultRel stem fields terms) := fun _ _ => by
  unfold resultRel; infer_instance

/-- One entry of the list returned by search_songs (src lines 131-138). -/
structure SearchResult where
  song_id : Str
  title : Str
  artist : Str
  score : Nat
deriving DecidableEq

/-- SongSearchEngine.search_songs (src lines 112-144): [] when no index is
present or the query is blank; otherwise the selected fields (title, artist
and lyrics when the caller passes none), the normalized query parsed into
terms, the matching documents scored and ordered by descending score with
ties broken by ascending document id (the wrapped searcher, modelled from the
spec), truncated to top_n, and projected onto song_id, the exact display
fields, and the score. -/
def searchSongs (stem : Str → Str) (e : Engine) (query_str : Str)
    (search_fields : List SField) (top_n : Nat) : List SearchResult :=
  match e.ix with
  | none => []
  | some gen =>
    if stripStr query_str = [] then []
    else
      let fields := if search_fields = [] then
        [SField.title, SField.artist, SField.lyrics] else search_fields
      let terms := queryTerms stem query_str
      let matched := gen.docs.filter (docMatches stem fields terms)
      let sorted := List.insertionSort (resultRel stem fields terms) matched
      (sorted.take top_n).map fun d =>
        { song_id := d.song_id, title := d.title_exact, artist := d.artist_exact,
          score := scoreDoc stem fields terms d }

/-- SongSearchEngine.get_song_details (src lines 146-151): the first loaded
record whose str(song_id) equals str() of the argument, else None. -/
def get_song_details (e : Engine) (song_id : PyVal) : Option SongRecord :=
  e.songs_data.find? fun song => pyStr song.song_id == pyStr song_id

/-- Python substring containment (a in b for strings). -/
def isSubstr (needle : Str) : Str → Bool
  | [] => needle.isEmpty
  | c :: cs => needle.isPrefixOf (c :: cs) || isSubstr needle cs

/-- Model of adding to the Python set suggestions: keep first-seen order and
distinctness (Python set iteration order is unspecified; the spec pins the
model to first-seen order, section 4.6). -/
def insertNew (acc : List Str) (v : Str) : List Str :=
  if acc.contains v then acc else acc ++ [v]

/-- One iteration of the suggestion loop (src lines 161-170): a record whose
lowercased title contains the lowercased query contributes its title, and
likewise for artist. -/
def suggStep (query_lower : Str) (acc : List Str) (song : SongRecord) : List Str :=
  let acc2 := if isSubstr query_lower (song.title.map Char.toLower) then
    insertNew acc song.title else acc
  if isSubstr query_lower (song.artist.map Char.toLower) then
    insertNew acc2 song.artist else acc2

/-- SongSearchEngine.get_search_suggestions (src lines 153-172): queries
shorter than 2 characters give []; otherwise each loaded record contributes
through suggStep, collected distinctly and truncated to max_suggestions. -/
def get_search_suggestions (e : Engine) (query_str : Str)
    (max_suggestions : Nat) : List Str :=
  if query_str.length < 2 then []
  else
    (e.songs_data.foldl (suggStep (query_str.map Char.toLower)) []).take
      max_suggestions

/-- The raw record field selected by a search field. -/
def recField (song : SongRecord) : SField → Str
  | .title => song.title
  | .artist => song.artist
  | .lyrics => song.lyrics

/-- Concrete records for evaluating the definitions (the example of spec
section 8). -/
def heyJude : SongRecord :=
  ⟨.s "1".data, "Hey Jude".data, "The Beatles".data, "Hey Jude dont make it bad".data⟩

def letItBe : SongRecord :=
  ⟨.s "2".data, "Let It Be".data, "The Beatles".data,
    "When I find myself in times of trouble".data⟩

/-- Engine after a successful initial build over the two example records. -/
def engEx : Engine := build_index ⟨none, [heyJude, letItBe]⟩

/-- A record whose song_id is stored as the number 42. -/
def numRec : SongRecord := ⟨.i 42, "Answer".data, "Deep Thought".data, "forty two".data⟩

def engNum : Engine := ⟨none, [numRec]⟩

/-- An engine holding one committed generation while songs_data has been
reloaded with a failing batch (two records sharing song_id "2"). -/
def engPre : Engine := ⟨some ⟨[toIndexedDoc heyJude]⟩, [letItBe, letItBe]⟩

theorem collapseGo_true_eq (l : Str) :
    collapseGo true l = collapseWS (l.dropWhile isSpaceChar) := by
  induction l with
  | nil => rfl
  | cons c cs ih =>
    by_cases h : isSpaceChar c = true
    · rw [show collapseGo true (c :: cs) = collapseGo true cs from by simp [collapseGo, h],
        List.dropWhile_cons, if_pos h, ih]
    · rw [show collapseGo true (c :: cs) = c :: collapseGo false cs from by
        simp [collapseGo, h], List.dropWhile_cons, if_neg h]
      simp [collapseWS, collapseGo, h]

theorem collapseWS_cons (c : Char) (cs : Str) :
    collapseWS (c :: cs) =
      if isSpaceChar c then ' ' :: collapseWS (cs.dropWhile isSpaceChar)
      else c :: collapseWS cs := by
  by_cases h : isSpaceChar c = true
  · rw [if_pos h, ← collapseGo_true_eq]
    simp [collapseWS, collapseGo, h]
  · rw [if_neg h]
    simp [collapseWS, collapseGo, h]

theorem collapseWS_induction {P : Str → Prop} (l : Str) (nil : P [])
    (spc : ∀ c cs, isSpaceChar c = true → P (cs.dropWhile isSpaceChar) → P (c :: cs))
    (chr : ∀ c cs, ¬ isSpaceChar c = true → P cs → P (c :: cs)) : P l := by
  have key : ∀ n, ∀ l : Str, l.length ≤ n → P l := by
    intro n
    induction n with
    | zero =>
      intro l hl
      rw [List.length_eq_zero.mp (Nat.le_zero.mp hl)]
      exact nil
    | succ n ih =>
      intro l hl
      cases l with
      | nil => exact nil
      | cons c cs =>
        simp only [List.length_cons] at hl
        by_cases h : isSpaceChar c = true
        · refine spc c cs h (ih _ ?_)
          have := (List.dropWhile_suffix (l := cs) isSpaceChar).sublist.length_le
          omega
        · exact chr c cs h (ih cs (by omega))
  exact key l.length l le_rfl

theorem toNat_toLower (c : Char) :
    c.toLower.toNat = if 65 ≤ c.toNat ∧ c.toNat ≤ 90 then c.toNat + 32 else c.toNat := by
  show (if c.toNat ≥ 65 ∧ c.toNat ≤ 90 then Char.ofNat (c.toNat + 32) else c).toNat = _
  by_cases h : 65 ≤ c.toNat ∧ c.toNat ≤ 90
  · rw [if_pos h, if_pos h]
    have hv : (c.toNat + 32).isValidChar := Or.inl (by omega)
    rw [show Char.ofNat (c.toNat + 32) = Char.ofNatAux (c.toNat + 32) hv from dif_pos hv]
    rfl
  · rw [if_neg h, if_neg h]

theorem char_eq_of_toNat_eq {a b : Char} (h : a.toNat = b.toNat) : a = b := by
  have h2 := congrArg Char.ofNat h
  rwa [Char.ofNat_toNat, Char.ofNat_toNat] at h2

theorem toLower_idem (c : Char) : c.toLower.toLower = c.toLower := by
  have h1 := toNat_toLower c
  have h2 := toNat_toLower c.toLower
  refine char_eq_of_toNat_eq ?_
  rw [h2]
  split
  · next h =>
    rw [h1] at h
    split at h <;> omega
  · rfl

theorem isSpaceChar_toLower (c : Char) :
    isSpaceChar c.toLower = isSpaceChar c := by
  have h := toNat_toLower c
  by_cases hu : 65 ≤ c.toNat ∧ c.toNat ≤ 90
  · rw [if_pos hu] at h
    have hL : isSpaceChar c.toLower = false := by
      simp only [isSpaceChar, h, Bool.or_eq_false_iff, decide_eq_false_iff_not]
      omega
    have hR : isSpaceChar c = false := by
      simp only [isSpaceChar, Bool.or_eq_false_iff, decide_eq_false_iff_not]
      omega
    rw [hL, hR]
  · rw [if_neg hu] at h
    simp only [isSpaceChar, h]

theorem head?_dropWhile (p : Char → Bool) (l : Str) :
    ∀ c, (l.dropWhile p).head? = some c → p c = false := by
  induction l with
  | nil => intro c h; simp at h
  | cons a as ih =>
    intro c h
    rw [List.dropWhile_cons] at h
    split at h
    · exact ih c h
    · next hp =>
      simp only [List.head?_cons, Option.some.injEq] at h
      subst h
      exact Bool.eq_false_iff.mpr hp

theorem getLast?_of_suffix {l₁ l₂ : Str} (h : l₁ <:+ l₂) (hne : l₁ ≠ []) :
    l₂.getLast? = l₁.getLast? := by
  obtain ⟨t, rfl⟩ := h
  exact List.getLast?_append_of_ne_nil t hne

theorem dropWhile_eq_nil_all {p : Char → Bool} {l : Str}
    (h : l.dropWhile p = []) : ∀ c ∈ l, p c = true := by
  intro c hc
  induction l with
  | nil => simp at hc
  | cons a as ih =>
    rw [List.dropWhile_cons] at h
    split at h
    · next hp =>
      rcases List.mem_cons.mp hc with rfl | hm
      · exact hp
      · exact ih h hm
    · simp at h

theorem collapseWS_nil_iff (l : Str) : collapseWS l = [] ↔ l = [] := by
  cases l with
  | nil => simp [collapseWS, collapseGo]
  | cons c cs =>
    constructor
    · intro h
      rw [collapseWS_cons] at h
      split at h <;> simp at h
    · intro h; simp at h

theorem mem_collapseWS {a : Char} : ∀ {l : Str}, a ∈ collapseWS l → a = ' ' ∨ a ∈ l := by
  intro l
  induction l using collapseWS_induction with
  | nil => intro h; simp [collapseWS, collapseGo] at h
  | spc c cs h ih =>
    intro hm
    rw [collapseWS_cons, if_pos h] at hm
    rcases List.mem_cons.mp hm with rfl | hm2
    · exact Or.inl rfl
    · rcases ih hm2 with rfl | hm3
      · exact Or.inl rfl
      · exact Or.inr (List.mem_cons_of_mem c ((List.dropWhile_suffix isSpaceChar).subset hm3))
  | chr c cs h ih =>
    intro hm
    rw [collapseWS_cons, if_neg h] at hm
    rcases List.mem_cons.mp hm with rfl | hm2
    · exact Or.inr (List.mem_cons_self a cs)
    · rcases ih hm2 with rfl | hm3
      · exact Or.inl rfl
      · exact Or.inr (List.mem_cons_of_mem c hm3)

theorem collapseWS_head? (l : Str) :
    (collapseWS l).head? = l.head?.map fun c => if isSpaceChar c then ' ' else c := by
  cases l with
  | nil => simp [collapseWS, collapseGo]
  | cons c cs =>
    rw [collapseWS_cons]
    split <;> next h => simp [h]

theorem collapseWS_drop_head_not_space {cs : Str} {x : Char} {xs : Str}
    (h : collapseWS (cs.dropWhile isSpaceChar) = x :: xs) : isSpaceChar x = false := by
  have h1 := collapseWS_head? (cs.dropWhile isSpaceChar)
  rw [h] at h1
  cases hh : (cs.dropWhile isSpaceChar).head? with
  | none => rw [hh] at h1; simp at h1
  | some c =>
    have hp := head?_dropWhile isSpaceChar cs c hh
    rw [hh] at h1
    simp only [List.head?_cons, Option.map_some', Option.some.injEq] at h1
    rw [h1, hp]
    exact hp

theorem wsOk_collapseWS (l : Str) : wsOk (collapseWS l) = true := by
  induction l using collapseWS_induction with
  | nil => simp [collapseWS, collapseGo, wsOk]
  | spc c cs h ih =>
    rw [collapseWS_cons, if_pos h]
    cases hx : collapseWS (cs.dropWhile isSpaceChar) with
    | nil => rfl
    | cons x xs =>
      have hxs := collapseWS_drop_head_not_space hx
      rw [hx] at ih
      unfold wsOk
      rw [ih]
      simp [hxs]
  | chr c cs h ih =>
    rw [collapseWS_cons, if_neg h]
    cases hx : collapseWS cs with
    | nil => simp [wsOk, h]
    | cons x xs =>
      rw [hx] at ih
      unfold wsOk
      rw [ih]
      simp [h]

theorem getLast?_reverse' (l : Str) : l.reverse.getLast? = l.head? := by
  rw [← List.head?_reverse l.reverse, List.reverse_reverse]

theorem lastOk_cons {c : Char} {cs : Str} (h : cs ≠ []) : lastOk (c :: cs) = lastOk cs := by
  have he : (c :: cs : Str).getLast? = cs.getLast? := by
    rw [show (c :: cs : Str) = [c] ++ cs from rfl]
    exact List.getLast?_append_of_ne_nil [c] h
  unfold lastOk
  rw [he]

theorem lastOk_collapseWS : ∀ l : Str, lastOk l = true → lastOk (collapseWS l) = true := by
  intro l
  induction l using collapseWS_induction with
  | nil => intro _; simp [collapseWS, collapseGo, lastOk]
  | spc c cs h ih =>
    intro hl
    have hcs : cs ≠ [] := by
      rintro rfl
      simp only [lastOk, List.getLast?_singleton, Option.all_some] at hl
      rw [h] at hl
      simp at hl
    rw [lastOk_cons hcs] at hl
    have hl' : cs.dropWhile isSpaceChar ≠ [] := by
      intro hnil
      have hall := dropWhile_eq_nil_all hnil
      have hmem := List.getLast_mem hcs
      have : lastOk cs = false := by
        unfold lastOk
        rw [List.getLast?_eq_getLast cs hcs]
        simp [hall _ hmem]
      rw [this] at hl
      exact Bool.false_ne_true hl
    have hlast : lastOk (cs.dropWhile isSpaceChar) = true := by
      unfold lastOk
      rw [← getLast?_of_suffix (List.dropWhile_suffix isSpaceChar) hl']
      exact hl
    have hX := ih hlast
    rw [collapseWS_cons, if_pos h]
    have hXne : collapseWS (cs.dropWhile isSpaceChar) ≠ [] := by
      intro hz
      exact hl' ((collapseWS_nil_iff _).mp hz)
    rw [lastOk_cons hXne]
    exact hX
  | chr c cs h ih =>
    intro hl
    rw [collapseWS_cons, if_neg h]
    cases hcs : cs with
    | nil =>
      subst hcs
      simp [collapseWS, collapseGo, lastOk, h]
    | cons d ds =>
      subst hcs
      have hne : (d :: ds : Str) ≠ [] := by simp
      rw [lastOk_cons hne] at hl
      have hX := ih hl
      have hXne : collapseWS (d :: ds) ≠ [] := by
        intro hz
        exact hne ((collapseWS_nil_iff _).mp hz)
      rw [lastOk_cons hXne]
      exact hX

theorem dropWhile_eq_self_of_headOk {l : Str} (h : headOk l = true) :
    l.dropWhile isSpaceChar = l := by
  cases l with
  | nil => rfl
  | cons c cs =>
    simp only [headOk, List.head?_cons, Option.all_some, Bool.not_eq_eq_eq_not,
      Bool.not_true] at h
    rw [List.dropWhile_cons, if_neg (by rw [h]; exact Bool.false_ne_true)]

theorem stripStr_eq_self {l : Str} (h1 : headOk l = true) (h2 : lastOk l = true) :
    stripStr l = l := by
  unfold stripStr
  rw [dropWhile_eq_self_of_headOk h1]
  have hrev : l.reverse.dropWhile isSpaceChar = l.reverse := by
    apply dropWhile_eq_self_of_headOk
    unfold headOk
    rw [List.head?_reverse]
    exact h2
  rw [hrev, List.reverse_reverse]

theorem map_toLower_eq_self {l : Str} (h : lowerFixed l = true) :
    l.map Char.toLower = l := by
  have hall := List.all_eq_true.mp h
  have : l.map Char.toLower = l.map id :=
    List.map_congr_left fun a ha => beq_iff_eq.mp (hall a ha)
  rw [this, List.map_id]

theorem collapseWS_eq_self : ∀ {l : Str}, wsOk l = true → collapseWS l = l := by
  intro l
  induction l using wsOk.induct with
  | case1 => intro _; simp [collapseWS, collapseGo]
  | case2 c =>
    intro h
    simp only [wsOk, Bool.or_eq_true, Bool.not_eq_eq_eq_not, Bool.not_true, beq_iff_eq] at h
    by_cases hc : isSpaceChar c = true
    · have hsp : c = ' ' := by
        rcases h with h | h
        · rw [hc] at h; exact absurd h (by simp)
        · exact h
      rw [collapseWS_cons, if_pos hc]
      simp [collapseWS, collapseGo, hsp]
    · rw [collapseWS_cons, if_neg hc]
      simp [collapseWS, collapseGo]
  | case3 c d rest ih =>
    intro h
    simp only [wsOk, Bool.and_eq_true] at h
    obtain ⟨h1, h2⟩ := h
    by_cases hc : isSpaceChar c = true
    · have hsp : c = ' ' ∧ isSpaceChar d = false := by
        simp only [Bool.or_eq_true, Bool.not_eq_eq_eq_not, Bool.not_true, Bool.and_eq_true,
          beq_iff_eq] at h1
        rcases h1 with h1 | h1
        · rw [hc] at h1; exact absurd h1 (by simp)
        · exact ⟨h1.1, by simpa using h1.2⟩
      rw [collapseWS_cons, if_pos hc, List.dropWhile_cons, if_neg (by rw [hsp.2]; simp)]
      rw [ih h2, hsp.1]
    · rw [collapseWS_cons, if_neg hc, ih h2]

theorem lowerFixed_normalize (s : Str) : lowerFixed (normalize s) = true := by
  unfold normalize
  split
  · rfl
  · refine List.all_eq_true.mpr fun c hc => ?_
    rcases mem_collapseWS hc with rfl | hm
    · decide
    · rcases List.mem_map.mp hm with ⟨a, _, rfl⟩
      exact beq_iff_eq.mpr (toLower_idem a)

theorem headOk_stripStr (s : Str) : headOk (stripStr s) = true := by
  unfold stripStr headOk
  rw [List.head?_reverse]
  cases hY : ((s.dropWhile isSpaceChar).reverse.dropWhile isSpaceChar).getLast? with
  | none => rfl
  | some c =>
    have hYne : (s.dropWhile isSpaceChar).reverse.dropWhile isSpaceChar ≠ [] := by
      intro hz; rw [hz] at hY; simp at hY
    have h1 := getLast?_of_suffix (List.dropWhile_suffix isSpaceChar) hYne
    rw [hY, getLast?_reverse'] at h1
    cases hX : (s.dropWhile isSpaceChar).head? with
    | none => rw [hX] at h1; simp at h1
    | some d =>
      rw [hX] at h1
      have hd := head?_dropWhile isSpaceChar s d hX
      simp only [Option.some.injEq] at h1
      subst h1
      simp [hd]

theorem lastOk_stripStr (s : Str) : lastOk (stripStr s) = true := by
  unfold stripStr lastOk
  rw [getLast?_reverse']
  cases hY : ((s.dropWhile isSpaceChar).reverse.dropWhile isSpaceChar).head? with
  | none => rfl
  | some c =>
    have hc := head?_dropWhile isSpaceChar (s.dropWhile isSpaceChar).reverse c hY
    simp [hc]

theorem headOk_map_toLower (l : Str) : headOk (l.map Char.toLower) = headOk l := by
  unfold headOk
  rw [List.head?_map]
  cases l.head? with
  | none => rfl
  | some c => simp [isSpaceChar_toLower]

theorem lastOk_map_toLower (l : Str) : lastOk (l.map Char.toLower) = lastOk l := by
  unfold lastOk
  rw [List.getLast?_map]
  cases l.getLast? with
  | none => rfl
  | some c => simp [isSpaceChar_toLower]

theorem headOk_collapseWS {l : Str} (h : headOk l = true) : headOk (collapseWS l) = true := by
  unfold headOk
  rw [collapseWS_head?]
  cases hh : l.head? with
  | none => rfl
  | some c =>
    unfold headOk at h
    rw [hh] at h
    simp only [Option.all_some, Bool.not_eq_eq_eq_not, Bool.not_true] at h
    simp [h]

theorem headOk_normalize (s : Str) : headOk (normalize s) = true := by
  unfold normalize
  split
  · rfl
  · exact headOk_collapseWS (by rw [headOk_map_toLower]; exact headOk_stripStr s)

theorem lastOk_normalize (s : Str) : lastOk (normalize s) = true := by
  unfold normalize
  split
  · rfl
  · exact lastOk_collapseWS _ (by rw [lastOk_map_toLower]; exact lastOk_stripStr s)

theorem wsOk_normalize (s : Str) : wsOk (normalize s) = true := by
  unfold normalize
  split
  · rfl
  · exact wsOk_collapseWS _

theorem normalize_eq_self {l : Str} (h1 : lowerFixed l = true) (h2 : headOk l = true)
    (h3 : lastOk l = true) (h4 : wsOk l = true) : normalize l = l := by
  unfold normalize
  by_cases hl : l = []
  · simp [hl]
  · rw [if_neg hl, stripStr_eq_self h2 h3, map_toLower_eq_self h1, collapseWS_eq_self h4]

/-- C4: normalization is idempotent: for every string s,
normalize (normalize s) = normalize s (SongSearchEngine.normalize,
src/song_search.py lines 26-32). -/
theorem normalize_idempotent (s : Str) : normalize (normalize s) = normalize s :=
  normalize_eq_self (lowerFixed_normalize s) (headOk_normalize s)
    (lastOk_normalize s) (wsOk_normalize s)

example : normalize "  Hello   WORLD \t ".data = "hello world".data := by decide

example : normalize ([] : Str) = [] := rfl

theorem tokenizeGo_ne_nil_eq (l : Str) :
    ∀ cur : Str, cur ≠ [] →
      tokenizeGo cur l =
        (cur.reverse ++ l.takeWhile isWordChar) :: tokenize (l.dropWhile isWordChar) := by
  induction l with
  | nil => intro cur hc; simp [tokenizeGo, tokenize, hc]
  | cons c cs ih =>
    intro cur hc
    by_cases h : isWordChar c = true
    · rw [show tokenizeGo cur (c :: cs) = tokenizeGo (c :: cur) cs from by simp [tokenizeGo, h]]
      rw [ih (c :: cur) (by simp), List.takeWhile_cons, if_pos h, List.dropWhile_cons, if_pos h]
      simp
    · rw [show tokenizeGo cur (c :: cs) = cur.reverse :: tokenizeGo [] cs from by
        simp [tokenizeGo, h, hc]]
      rw [List.takeWhile_cons, if_neg h, List.dropWhile_cons, if_neg h]
      rw [show tokenize (c :: cs) = tokenizeGo [] cs from by simp [tokenize, tokenizeGo, h]]
      simp

theorem tokenize_cons (c : Char) (cs : Str) :
    tokenize (c :: cs) =
      if isWordChar c then
        (c :: cs.takeWhile isWordChar) :: tokenize (cs.dropWhile isWordChar)
      else tokenize cs := by
  by_cases h : isWordChar c = true
  · rw [if_pos h]
    rw [show tokenize (c :: cs) = tokenizeGo [c] cs from by simp [tokenize, tokenizeGo, h]]
    rw [tokenizeGo_ne_nil_eq cs [c] (by simp)]
    simp
  · rw [if_neg h]
    simp [tokenize, tokenizeGo, h]

theorem tokenize_induction {P : Str → Prop} (l : Str) (nil : P [])
    (word : ∀ c cs, isWordChar c = true → P (cs.dropWhile isWordChar) → P (c :: cs))
    (nonword : ∀ c cs, ¬ isWordChar c = true → P cs → P (c :: cs)) : P l := by
  have key : ∀ n, ∀ l : Str, l.length ≤ n → P l := by
    intro n
    induction n with
    | zero =>
      intro l hl
      rw [List.length_eq_zero.mp (Nat.le_zero.mp hl)]
      exact nil
    | succ n ih =>
      intro l hl
      cases l with
      | nil => exact nil
      | cons c cs =>
        simp only [List.length_cons] at hl
        by_cases h : isWordChar c = true
        · refine word c cs h (ih _ ?_)
          have := (List.dropWhile_suffix (l := cs) isWordChar).sublist.length_le
          omega
        · exact nonword c cs h (ih cs (by omega))
  exact key l.length l le_rfl

/-- C7: for every query string that is blank or whitespace-only, search_songs
returns the empty sequence; the embedded function is total, so no error is
surfaced to the caller (src/song_search.py lines 112-115: the guard
returns [] when query_str.strip() is falsy). -/
theorem searchSongs_blank_query (stem : Str → Str) (e : Engine) (q : Str)
    (fields : List SField) (top_n : Nat) (h : ∀ c ∈ q, isSpaceChar c = true) :
    searchSongs stem e q fields top_n = [] := by
  have hstrip : stripStr q = [] := by
    unfold stripStr
    rw [List.dropWhile_eq_nil_iff.mpr h]
    rfl
  cases hix : e.ix with
  | none => simp [searchSongs, hix]
  | some gen => simp [searchSongs, hix, hstrip]

/-- Witness for C7: a whitespace-only query against the example engine. -/
theorem searchSongs_blank_query_witness :
    (∀ c ∈ (" \t ".data : Str), isSpaceChar c = true) ∧
      searchSongs stemLite engEx " \t ".data [] 10 = [] :=
  ⟨by decide, searchSongs_blank_query stemLite engEx " \t ".data [] 10 (by decide)⟩

/-- C6: for every query string, field set and limit, the list returned by
search_songs never has more than top_n entries, even when more documents
match (src lines 112-144; the searcher truncates to the limit). -/
theorem searchSongs_length_le (stem : Str → Str) (e : Engine) (q : Str)
    (fields : List SField) (top_n : Nat) :
    (searchSongs stem e q fields top_n).length ≤ top_n := by
  cases hix : e.ix with
  | none => simp [searchSongs, hix]
  | some gen =>
    simp only [searchSongs, hix]
    split
    · simp
    · rw [List.length_map]
      exact List.length_take_le _ _

/-- C9: for every query string shorter than 2 characters (the empty string
included), get_search_suggestions returns the empty list rather than raising
(src lines 153-156). -/
theorem suggestions_short_query (e : Engine) (q : Str) (m : Nat)
    (h : q.length < 2) : get_search_suggestions e q m = [] := by
  unfold get_search_suggestions
  rw [if_pos h]

/-- Witness for C9: a one-character query against the example engine. -/
theorem suggestions_short_query_witness :
    ("h".data : Str).length < 2 ∧ get_search_suggestions engEx "h".data 5 = [] :=
  ⟨by decide, suggestions_short_query engEx "h".data 5 (by decide)⟩

/-- C10: get_song_details returns the first loaded record whose stored
song_id, converted by str(), equals the str() conversion of the argument
(so the numerically stored id 42 is found by the string 42), and returns
None exactly when no record matches (src lines 146-151). -/
theorem get_song_details_spec (e : Engine) (sid : PyVal) :
    (∀ song, get_song_details e sid = some song →
        pyStr song.song_id = pyStr sid ∧
        ∃ pre post, e.songs_data = pre ++ song :: post ∧
          ∀ s ∈ pre, pyStr s.song_id ≠ pyStr sid) ∧
    (get_song_details e sid = none ↔
      ∀ s ∈ e.songs_data, pyStr s.song_id ≠ pyStr sid) := by
  constructor
  · intro song hfind
    rw [get_song_details, List.find?_eq_some] at hfind
    obtain ⟨hp, pre, post, hsplit, hpre⟩ := hfind
    refine ⟨by simpa using hp, pre, post, hsplit, fun s hs => ?_⟩
    simpa using hpre s hs
  · rw [get_song_details, List.find?_eq_none]
    constructor
    · intro hnone s hs
      simpa using hnone s hs
    · intro hall s hs
      simpa using hall s hs

/-- Witness for C10: the record stored with numeric id 42 is found by the
string 42 and decomposes as the first match. -/
theorem get_song_details_spec_witness :
    pyStr numRec.song_id = pyStr (PyVal.s "42".data) ∧
      ∃ pre post, engNum.songs_data = pre ++ numRec :: post ∧
        ∀ s ∈ pre, pyStr s.song_id ≠ pyStr (PyVal.s "42".data) :=
  (get_song_details_spec engNum (PyVal.s "42".data)).1 numRec (by decide)

theorem addDocs_ok_spec :
    ∀ (rs : List SongRecord) (seen : List Str) (ds : List IndexedDoc),
      addDocs seen rs = .ok ds →
      ds = rs.map toIndexedDoc ∧
      (rs.map fun r => pyStr r.song_id).Nodup ∧
      ∀ r ∈ rs, pyStr r.song_id ∉ seen := by
  intro rs
  induction rs with
  | nil =>
    intro seen ds h
    simp only [addDocs, Except.ok.injEq] at h
    simp [← h]
  | cons song rest ih =>
    intro seen ds h
    simp only [addDocs] at h
    split at h
    · exact absurd h (by simp)
    · next hseen =>
      split at h
      · next ds2 hrec =>
        obtain ⟨hds2, hnd, hnotin⟩ := ih (pyStr song.song_id :: seen) ds2 hrec
        simp only [Except.ok.injEq] at h
        have hkey : pyStr song.song_id ∉ rest.map fun r => pyStr r.song_id := by
          intro hmem
          rcases List.mem_map.mp hmem with ⟨r, hr, hpr⟩
          exact hnotin r hr (by rw [hpr]; exact List.mem_cons_self _ _)
        refine ⟨by rw [← h, hds2]; rfl, List.nodup_cons.mpr ⟨hkey, hnd⟩, ?_⟩
        intro r hr
        rcases List.mem_cons.mp hr with rfl | hr2
        · intro hc
          rw [List.contains] at hseen
          exact hseen (List.elem_iff.mpr hc)
        · intro hc
          exact hnotin r hr2 (List.mem_cons_of_mem _ hc)
      · exact absurd h (by simp)

theorem addDocs_error_spec :
    ∀ (rs : List SongRecord) (seen : List Str) (err : BuildError),
      addDocs seen rs = .error err →
      ∃ dup, err = .duplicateKey dup ∧
        dup ∈ rs.map (fun r => pyStr r.song_id) ∧
        (dup ∈ seen ∨ 2 ≤ (rs.map fun r => pyStr r.song_id).count dup) := by
  intro rs
  induction rs with
  | nil =>
    intro seen err h
    simp [addDocs] at h
  | cons song rest ih =>
    intro seen err h
    simp only [addDocs] at h
    split at h
    · next hseen =>
      simp only [Except.error.injEq] at h
      refine ⟨pyStr song.song_id, by rw [← h], by simp, Or.inl ?_⟩
      rw [List.contains] at hseen
      exact List.elem_iff.mp hseen
    · next hseen =>
      split at h
      · exact absurd h (by simp)
      · next e2 hrec =>
        simp only [Except.error.injEq] at h
        obtain ⟨dup, herr, hmem, hloc⟩ := ih (pyStr song.song_id :: seen) e2 hrec
        subst h
        refine ⟨dup, herr, List.mem_cons_of_mem _ hmem, ?_⟩
        rcases hloc with hin | hcount
        · rcases List.mem_cons.mp hin with heq | hin2
          · right
            have h1 : 1 ≤ (rest.map fun r => pyStr r.song_id).count dup :=
              List.count_pos_iff.mpr hmem
            rw [heq] at h1
            rw [heq]
            simp only [List.map_cons, List.count_cons, beq_self_eq_true, if_true]
            omega
          · exact Or.inl hin2
        · right
          simp only [List.map_cons, List.count_cons]
          split <;> omega

/-- C2: for every batch in which two records share the same song_id value,
the modelled build fails with DuplicateKeyError carrying an id that really is
shared (naming the offending id), and produces no generation (the result is
an error, not a document list).  The duplicate check itself lives in the
wrapped library and is modelled from the spec (section 4.3); src lines 92-107
pass each record with its unique song_id field to writer.add_document. -/
theorem build_duplicate_key (records : List SongRecord)
    (h : ¬ (records.map fun r => pyStr r.song_id).Nodup) :
    ∃ dup, buildDocs records = .error (.duplicateKey dup) ∧
      2 ≤ (records.map fun r => pyStr r.song_id).count dup := by
  have hne : records ≠ [] := by
    rintro rfl
    exact h List.nodup_nil
  rw [buildDocs, if_neg hne]
  cases hres : addDocs [] records with
  | ok ds =>
    obtain ⟨_, hnd, _⟩ := addDocs_ok_spec records [] ds hres
    exact absurd hnd h
  | error err =>
    obtain ⟨dup, herr, _, hloc⟩ := addDocs_error_spec records [] err hres
    rcases hloc with hin | hcount
    · exact absurd hin (by simp)
    · exact ⟨dup, by rw [herr], hcount⟩

/-- Witness for C2: two records with song_id 2 make the build fail with
DuplicateKeyError naming id 2, which occurs twice. -/
theorem build_duplicate_key_witness :
    ∃ dup, buildDocs [letItBe, letItBe] = .error (.duplicateKey dup) ∧
      2 ≤ (([letItBe, letItBe].map fun r => pyStr r.song_id).count dup) :=
  build_duplicate_key [letItBe, letItBe] (by decide)

/-- C1 as stated fails on the code: engPre holds one committed document that
matches the query jude; rebuilding its songs_data batch fails partway
(DuplicateKeyError in the modelled writer), yet afterwards search returns []
instead of the pre-rebuild results, because build_index removed the old index
and repointed self.ix at the fresh empty generation before ingesting any
record. -/
theorem rebuild_not_atomic_counterexample :
    buildDocs engPre.songs_data = .error (.duplicateKey "2".data) ∧
      searchSongs stemLite engPre "jude".data [] 10 ≠ [] ∧
      searchSongs stemLite (build_index engPre) "jude".data [] 10 = [] ∧
      searchSongs stemLite (build_index engPre) "jude".data [] 10 ≠
        searchSongs stemLite engPre "jude".data [] 10 :=
  ⟨by decide, by decide, by decide, by decide⟩

/-- C1 amended: rebuild is NOT atomic.  When a rebuild over a nonempty batch
fails partway, build_index has already deleted the previously active
generation (shutil.rmtree) and installed the fresh empty generation created
by index.create_in as self.ix, so every subsequent search returns the empty
sequence rather than the pre-rebuild results (src lines 80-110: rmtree and
create_in run before the add-document loop, and the exception handler only
reports the error). -/
theorem rebuild_failure_exposes_empty (stem : Str → Str) (e : Engine)
    (err : BuildError) (hne : e.songs_data ≠ [])
    (hfail : buildDocs e.songs_data = .error err) :
    (build_index e).ix = some ⟨[]⟩ ∧
      ∀ q fields top_n, searchSongs stem (build_index e) q fields top_n = [] := by
  have hix : (build_index e).ix = some ⟨[]⟩ := by
    rw [build_index, if_neg hne, hfail]
  refine ⟨hix, fun q fields top_n => ?_⟩
  simp only [searchSongs, hix]
  split
  · rfl
  · simp

/-- Witness for C1 amended: the failing rebuild of engPre leaves the empty
generation active, and every search against it returns []. -/
theorem rebuild_failure_exposes_empty_witness :
    (build_index engPre).ix = some ⟨[]⟩ ∧
      ∀ q fields top_n,
        searchSongs stemLite (build_index engPre) q fields top_n = [] :=
  rebuild_failure_exposes_empty stemLite engPre (.duplicateKey "2".data)
    (by decide) (by decide)

theorem lexLe_total : ∀ a b : Str, lexLe a b = true ∨ lexLe b a = true := by
  intro a
  induction a with
  | nil => intro b; exact Or.inl rfl
  | cons c cs ih =>
    intro b
    cases b with
    | nil => exact Or.inr rfl
    | cons d ds =>
      by_cases hcd : c = d
      · subst hcd
        rcases ih ds with h | h
        · exact Or.inl (by simp [lexLe, h])
        · exact Or.inr (by simp [lexLe, h])
      · rcases lt_trichotomy c d with hlt | heq | hgt
        · exact Or.inl (by simp [lexLe, hcd, hlt])
        · exact absurd heq hcd
        · have hdc : d ≠ c := fun e => hcd e.symm
          exact Or.inr (by simp [lexLe, hdc, hgt])

theorem lexLe_trans :
    ∀ a b c : Str, lexLe a b = true → lexLe b c = true → lexLe a c = true := by
  intro a
  induction a with
  | nil => intro b c _ _; rfl
  | cons x xs ih =>
    intro b c hab hbc
    cases b with
    | nil => simp [lexLe] at hab
    | cons y ys =>
      cases c with
      | nil => simp [lexLe] at hbc
      | cons z zs =>
        by_cases hxy : x = y
        · subst hxy
          rw [lexLe, if_pos rfl] at hab
          by_cases hyz : x = z
          · subst hyz
            rw [lexLe, if_pos rfl] at hbc
            rw [lexLe, if_pos rfl]
            exact ih ys zs hab hbc
          · rw [lexLe, if_neg hyz] at hbc
            rw [lexLe, if_neg hyz]
            exact hbc
        · rw [lexLe, if_neg hxy] at hab
          have hxy2 : x < y := of_decide_eq_true hab
          by_cases hyz : y = z
          · subst hyz
            rw [lexLe, if_neg hxy]
            exact hab
          · rw [lexLe, if_neg hyz] at hbc
            have hyz2 : y < z := of_decide_eq_true hbc
            have hxz : x < z := lt_trans hxy2 hyz2
            rw [lexLe, if_neg (ne_of_lt hxz)]
            exact decide_eq_true hxz

theorem resultRel_isTotal (stem : Str → Str) (fields : List SField) (terms : List Str) :
    IsTotal IndexedDoc (resultRel stem fields terms) := by
  constructor
  intro a b
  rcases lt_trichotomy (scoreDoc stem fields terms a) (scoreDoc stem fields terms b) with
    hlt | heq | hgt
  · exact Or.inr (Or.inl hlt)
  · rcases lexLe_total a.song_id b.song_id with h | h
    · exact Or.inl (Or.inr ⟨heq, h⟩)
    · exact Or.inr (Or.inr ⟨heq.symm, h⟩)
  · exact Or.inl (Or.inl hgt)

theorem resultRel_isTrans (stem : Str → Str) (fields : List SField) (terms : List Str) :
    IsTrans IndexedDoc (resultRel stem fields terms) := by
  constructor
  intro a b c hab hbc
  rcases hab with hab | ⟨heqab, hleab⟩
  · rcases hbc with hbc | ⟨heqbc, _⟩
    · exact Or.inl (lt_trans hbc hab)
    · exact Or.inl (heqbc ▸ hab)
  · rcases hbc with hbc | ⟨heqbc, hlebc⟩
    · exact Or.inl (heqab ▸ hbc)
    · exact Or.inr ⟨heqab.trans heqbc, lexLe_trans _ _ _ hleab hlebc⟩

theorem take_insertionSort_pairwise (stem : Str → Str) (fields : List SField)
    (terms : List Str) (l : List IndexedDoc) (n : Nat) :
    (List.take n (List.insertionSort (resultRel stem fields terms) l)).Pairwise
      (resultRel stem fields terms) := by
  haveI := resultRel_isTotal stem fields terms
  haveI := resultRel_isTrans stem fields terms
  exact List.Pairwise.sublist (List.take_sublist _ _) (List.sorted_insertionSort _ _)

/-- C5: the list returned by search_songs is ordered descending by score,
with equal-score ties broken by document id ascending (lexicographically on
the song_id string); the function is pure, so repeated identical searches
give identical ordered results (src lines 124-140; the wrapped searcher's
ordering is modelled from the spec). -/
theorem searchSongs_sorted (stem : Str → Str) (e : Engine) (q : Str)
    (fields : List SField) (top_n : Nat) :
    (searchSongs stem e q fields top_n).Pairwise fun r1 r2 =>
      r2.score < r1.score ∨ (r1.score = r2.score ∧ lexLe r1.song_id r2.song_id = true) := by
  cases hix : e.ix with
  | none => simp [searchSongs, hix]
  | some gen =>
    simp only [searchSongs, hix]
    split
    · simp
    · rw [List.pairwise_map]
      exact (take_insertionSort_pairwise stem _ _ _ top_n).imp fun hab => hab

theorem contains_iff_mem {a : Str} {l : List Str} : l.contains a = true ↔ a ∈ l := by
  rw [List.contains]
  exact List.elem_iff

theorem isWordChar_not_space {c : Char} (h : isWordChar c = true) :
    isSpaceChar c = false := by
  cases hs : isSpaceChar c
  · rfl
  · exfalso
    simp only [isSpaceChar, Bool.or_eq_true, decide_eq_true_eq] at hs
    have hw : isWordChar c = false := by
      obtain h1 | h1 | h1 | h1 | h1 | h1 :
          c.toNat = 32 ∨ c.toNat = 9 ∨ c.toNat = 10 ∨ c.toNat = 13 ∨
            c.toNat = 11 ∨ c.toNat = 12 := by omega
      · rw [char_eq_of_toNat_eq (a := c) (b := ' ') (by rw [h1]; rfl)]; decide
      · rw [char_eq_of_toNat_eq (a := c) (b := '\t') (by rw [h1]; rfl)]; decide
      · rw [char_eq_of_toNat_eq (a := c) (b := '\n') (by rw [h1]; rfl)]; decide
      · rw [char_eq_of_toNat_eq (a := c) (b := '\r') (by rw [h1]; rfl)]; decide
      · rw [char_eq_of_toNat_eq (a := c) (b := '\x0b') (by rw [h1]; rfl)]; decide
      · rw [char_eq_of_toNat_eq (a := c) (b := '\x0c') (by rw [h1]; rfl)]; decide
    rw [hw] at h
    exact Bool.false_ne_true h

theorem tokenize_token_spec (x : Str) :
    ∀ T ∈ tokenize x, T ≠ [] ∧ (∀ c ∈ T, isWordChar c = true) ∧ ∀ c ∈ T, c ∈ x := by
  induction x using tokenize_induction with
  | nil => intro T hT; simp [tokenize, tokenizeGo] at hT
  | word c cs h ih =>
    intro T hT
    rw [tokenize_cons, if_pos h] at hT
    rcases List.mem_cons.mp hT with rfl | hT2
    · refine ⟨by simp, ?_, ?_⟩
      · intro a ha
        rcases List.mem_cons.mp ha with rfl | ha2
        · exact h
        · exact List.mem_takeWhile_imp ha2
      · intro a ha
        rcases List.mem_cons.mp ha with rfl | ha2
        · exact List.mem_cons_self _ _
        · exact List.mem_cons_of_mem _ ((List.takeWhile_prefix _).subset ha2)
    · obtain ⟨hne, hword, hsub⟩ := ih T hT2
      refine ⟨hne, hword, fun a ha => List.mem_cons_of_mem _ ?_⟩
      exact (List.dropWhile_suffix _).subset (hsub a ha)
  | nonword c cs h ih =>
    intro T hT
    rw [tokenize_cons, if_neg h] at hT
    obtain ⟨hne, hword, hsub⟩ := ih T hT
    exact ⟨hne, hword, fun a ha => List.mem_cons_of_mem _ (hsub a ha)⟩

theorem tokenize_all_word {l : Str} (hne : l ≠ [])
    (hw : ∀ c ∈ l, isWordChar c = true) : tokenize l = [l] := by
  cases l with
  | nil => exact absurd rfl hne
  | cons c cs =>
    rw [tokenize_cons, if_pos (hw c (List.mem_cons_self _ _))]
    rw [List.takeWhile_eq_self_iff.mpr fun x hx => hw x (List.mem_cons_of_mem _ hx)]
    rw [List.dropWhile_eq_nil_iff.mpr fun x hx => hw x (List.mem_cons_of_mem _ hx)]
    rfl

theorem wsOk_of_no_space {l : Str} (h : ∀ c ∈ l, isSpaceChar c = false) :
    wsOk l = true := by
  induction l using wsOk.induct with
  | case1 => rfl
  | case2 c => simp [wsOk, h c (List.mem_cons_self _ _)]
  | case3 c d rest ih =>
    unfold wsOk
    rw [ih fun a ha => h a (List.mem_cons_of_mem _ ha)]
    simp [h c (List.mem_cons_self _ _)]

theorem headOk_of_no_space {l : Str} (h : ∀ c ∈ l, isSpaceChar c = false) :
    headOk l = true := by
  cases hh : l.head? with
  | none => simp [headOk, hh]
  | some c =>
    have hmem : c ∈ l := List.mem_of_mem_head? (by rw [hh]; rfl)
    simp [headOk, hh, h c hmem]

theorem lastOk_of_no_space {l : Str} (h : ∀ c ∈ l, isSpaceChar c = false) :
    lastOk l = true := by
  by_cases hne : l = []
  · subst hne; rfl
  · have hmem : l.getLast hne ∈ l := List.getLast_mem hne
    unfold lastOk
    rw [List.getLast?_eq_getLast l hne]
    simp [h _ hmem]

/-- C3: index/query normalization parity.  If T is a term of the analyzed
field value of a record (a token of the normalized text that the analyzer
keeps, i.e. not in the stoplist), then after a successful build the document
built from that record is in the committed generation, and a query for
exactly T against that field matches the document: the query string passes
through the same normalize (src line 127 mirrors lines 99-101) and the same
analyzer, so its stemmed form occurs among the document's analyzed terms
(the analyzer itself is modelled from the spec). -/
theorem index_query_parity (stem : Str → Str) (records : List SongRecord)
    (docs : List IndexedDoc) (song : SongRecord) (f : SField) (T : Str)
    (hbuild : buildDocs records = .ok docs) (hmem : song ∈ records)
    (hT : T ∈ tokenize (normalize (recField song f))) (hstop : T ∉ stoplist) :
    toIndexedDoc song ∈ docs ∧
      docMatches stem [f] (queryTerms stem T) (toIndexedDoc song) = true := by
  constructor
  · have hne : records ≠ [] := by
      rintro rfl
      exact absurd hmem (List.not_mem_nil song)
    rw [buildDocs, if_neg hne] at hbuild
    cases hres : addDocs [] records with
    | error e => rw [hres] at hbuild; exact absurd hbuild (by simp)
    | ok ds =>
      rw [hres] at hbuild
      simp only [Except.ok.injEq] at hbuild
      obtain ⟨hds, _, _⟩ := addDocs_ok_spec records [] ds hres
      rw [← hbuild, hds]
      exact List.mem_map_of_mem toIndexedDoc hmem
  · obtain ⟨hTne, hTword, hTsub⟩ := tokenize_token_spec (normalize (recField song f)) T hT
    have hlower : ∀ c ∈ T, c.toLower = c := by
      intro c hc
      exact beq_iff_eq.mp
        (List.all_eq_true.mp (lowerFixed_normalize (recField song f)) c (hTsub c hc))
    have hTfix : lowerFixed T = true :=
      List.all_eq_true.mpr fun c hc => beq_iff_eq.mpr (hlower c hc)
    have hTlow : T.map Char.toLower = T := map_toLower_eq_self hTfix
    have hTnospace : ∀ c ∈ T, isSpaceChar c = false := fun c hc =>
      isWordChar_not_space (hTword c hc)
    have hnormT : normalize T = T :=
      normalize_eq_self hTfix (headOk_of_no_space hTnospace)
        (lastOk_of_no_space hTnospace) (wsOk_of_no_space hTnospace)
    have hqt : queryTerms stem T = [stem T] := by
      rw [queryTerms, hnormT, analyzeWith, tokenize_all_word hTne hTword]
      simp [hTlow, hstop]
    have hfv : fieldVal (toIndexedDoc song) f = normalize (recField song f) := by
      cases f <;> rfl
    rw [hqt, docMatches]
    simp only [List.any_cons, List.any_nil, Bool.or_false, hfv]
    apply contains_iff_mem.mpr
    rw [analyzeWith]
    refine List.mem_map_of_mem stem (List.mem_filter.mpr ⟨?_, ?_⟩)
    · exact List.mem_map.mpr ⟨T, hT, hTlow⟩
    · simp [hstop]

/-- Witness for C3: the term jude occurs in the analyzed title of the Hey
Jude record; after building over that record, a title query for jude matches
the indexed document. -/
theorem index_query_parity_witness :
    toIndexedDoc heyJude ∈ [toIndexedDoc heyJude] ∧
      docMatches stemLite [SField.title] (queryTerms stemLite "jude".data)
        (toIndexedDoc heyJude) = true :=
  index_query_parity stemLite [heyJude] [toIndexedDoc heyJude] heyJude
    SField.title "jude".data (by decide) (by decide) (by decide) (by decide)

theorem insertNew_nodup {acc : List Str} {v : Str} (h : acc.Nodup) :
    (insertNew acc v).Nodup := by
  unfold insertNew
  split
  · exact h
  · next hc =>
    have hv : v ∉ acc := fun hm => hc (contains_iff_mem.mpr hm)
    exact h.append (List.nodup_singleton v)
      fun x hx hxv => hv (by rwa [List.mem_singleton.mp hxv] at hx)

theorem mem_insertNew {acc : List Str} {v w : Str} (h : w ∈ insertNew acc v) :
    w ∈ acc ∨ w = v := by
  unfold insertNew at h
  split at h
  · exact Or.inl h
  · rcases List.mem_append.mp h with h2 | h2
    · exact Or.inl h2
    · exact Or.inr (List.mem_singleton.mp h2)

theorem suggStep_nodup (q : Str) (acc : List Str) (song : SongRecord)
    (h : acc.Nodup) : (suggStep q acc song).Nodup := by
  unfold suggStep
  split
  · split
    · exact insertNew_nodup (insertNew_nodup h)
    · exact insertNew_nodup h
  · split
    · exact insertNew_nodup h
    · exact h

theorem suggStep_mem (q : Str) (acc : List Str) (song : SongRecord) (v : Str)
    (h : v ∈ suggStep q acc song) :
    v ∈ acc ∨
      (v = song.title ∧ isSubstr q (song.title.map Char.toLower) = true) ∨
      (v = song.artist ∧ isSubstr q (song.artist.map Char.toLower) = true) := by
  unfold suggStep at h
  split at h
  · next htit =>
    dsimp only at h
    split at h
    · next hart =>
      rcases mem_insertNew h with h2 | h2
      · rcases mem_insertNew h2 with h3 | h3
        · exact Or.inl h3
        · exact Or.inr (Or.inl ⟨h3, htit⟩)
      · exact Or.inr (Or.inr ⟨h2, hart⟩)
    · rcases mem_insertNew h with h2 | h2
      · exact Or.inl h2
      · exact Or.inr (Or.inl ⟨h2, htit⟩)
  · dsimp only at h
    split at h
    · next hart =>
      rcases mem_insertNew h with h2 | h2
      · exact Or.inl h2
      · exact Or.inr (Or.inr ⟨h2, hart⟩)
    · exact Or.inl h

theorem suggestions_fold_spec (q : Str) (songs : List SongRecord) :
    ∀ acc : List Str, acc.Nodup →
      (songs.foldl (suggStep q) acc).Nodup ∧
      ∀ v ∈ songs.foldl (suggStep q) acc,
        v ∈ acc ∨ ∃ song ∈ songs,
          (v = song.title ∧ isSubstr q (song.title.map Char.toLower) = true) ∨
          (v = song.artist ∧ isSubstr q (song.artist.map Char.toLower) = true) := by
  induction songs with
  | nil => exact fun acc hacc => ⟨hacc, fun v hv => Or.inl hv⟩
  | cons song rest ih =>
    intro acc hacc
    rw [List.foldl_cons]
    obtain ⟨h1, h2⟩ := ih (suggStep q acc song) (suggStep_nodup q acc song hacc)
    refine ⟨h1, fun v hv => ?_⟩
    rcases h2 v hv with hv2 | ⟨s, hs, hmatch⟩
    · rcases suggStep_mem q acc song v hv2 with hva | hvm
      · exact Or.inl hva
      · exact Or.inr ⟨song, List.mem_cons_self _ _, hvm⟩
    · exact Or.inr ⟨s, List.mem_cons_of_mem _ hs, hmatch⟩

/-- C8: for every query of length at least 2, get_search_suggestions returns
at most max_suggestions pairwise-distinct strings, and every returned string
is the title or the artist of some loaded record that contains the query as
a case-insensitive substring (src lines 153-172; the Python set is modelled
with first-seen insertion order, which the claimed properties do not depend
on). -/
theorem suggestions_spec (e : Engine) (q : Str) (m : Nat) (h : 2 ≤ q.length) :
    (get_search_suggestions e q m).length ≤ m ∧
    (get_search_suggestions e q m).Nodup ∧
    ∀ v ∈ get_search_suggestions e q m,
      ∃ song ∈ e.songs_data,
        (v = song.title ∧
          isSubstr (q.map Char.toLower) (song.title.map Char.toLower) = true) ∨
        (v = song.artist ∧
          isSubstr (q.map Char.toLower) (song.artist.map Char.toLower) = true) := by
  have hcond : ¬ q.length < 2 := Nat.not_lt.mpr h
  have hrw : get_search_suggestions e q m =
      (e.songs_data.foldl (suggStep (q.map Char.toLower)) []).take m := by
    rw [get_search_suggestions, if_neg hcond]
  obtain ⟨hnd, hmem⟩ :=
    suggestions_fold_spec (q.map Char.toLower) e.songs_data [] List.nodup_nil
  rw [hrw]
  refine ⟨List.length_take_le _ _,
    List.Nodup.sublist (List.take_sublist _ _) hnd, fun v hv => ?_⟩
  have hvF := (List.take_sublist _ _).subset hv
  rcases hmem v hvF with hfalse | hgood
  · exact absurd hfalse (List.not_mem_nil v)
  · exact hgood

/-- Witness for C8: the query he against the example engine. -/
theorem suggestions_spec_witness :
    (get_search_suggestions engEx "he".data 5).length ≤ 5 ∧
      (get_search_suggestions engEx "he".data 5).Nodup ∧
      ∀ v ∈ get_search_suggestions engEx "he".data 5,
        ∃ song ∈ engEx.songs_data,
          (v = song.title ∧
            isSubstr ("he".data.map Char.toLower) (song.title.map Char.toLower) = true) ∨
          (v = song.artist ∧
            isSubstr ("he".data.map Char.toLower) (song.artist.map Char.toLower) = true) :=
  suggestions_spec engEx "he".data 5 (by decide)
